import Mathlib

/-!
Verification of the class-group arithmetic engine of a Castagnos-Laguillaumie
(CL) linearly homomorphic encryption scheme.

The development embeds, as executable Lean functions over `Int`:
  * the NUCOMP-style composition routine `inner_multiply2` (both copies
    present in the source tree), threading the scratch context `Ctx`;
  * the reduction of binary quadratic forms;
  * the CL-layer primitives `expo_f`, `discrete_log_f`,
    `principal_ideal_class`, `encrypt`, `decrypt`, `update_class_group_by_p`.

Arbitrary-precision integers (GMP `Mpz`) are embedded as `Int`;
`mpz_fdiv_q` is `Int.fdiv`, `mod_floor` is `Int.fmod` (`%` below denotes
Euclidean `Int.emod`, `/` Euclidean `Int.ediv`), and `mpz_invert` and the
congruence solver are built on a fuel-indexed extended Euclidean algorithm
so that everything evaluates inside the kernel.
-/

set_option maxRecDepth 20000

/-- Modelled from the spec: extended Euclidean algorithm of the assumed
big-integer library (`mpz_gcdext`).  Fuel-indexed for structural
termination; returns `(g, x, y)` with `g = gcd a b ≥ 0` and
`x*a + y*b = g` whenever the fuel exceeds `b.natAbs`. -/
def egcdF : Nat → Int → Int → Int × Int × Int
  | 0, a, _ => if a < 0 then (-a, -1, 0) else (a, 1, 0)
  | fuel+1, a, b =>
    if b = 0 then (if a < 0 then (-a, -1, 0) else (a, 1, 0))
    else
      let q := a / b
      let t := egcdF fuel b (a % b)
      (t.1, t.2.2, t.2.1 - q * t.2.2)

theorem egcdF_zero (n : Nat) (a : Int) :
    egcdF n a 0 = if a < 0 then (-a, -1, 0) else (a, 1, 0) := by
  cases n <;> simp [egcdF]

theorem int_emod_natAbs_lt (a : Int) {b : Int} (hb : b ≠ 0) :
    (a % b).natAbs < b.natAbs := by
  have h1 : 0 ≤ a % b := Int.emod_nonneg a hb
  rcases lt_or_gt_of_ne hb with hneg | hpos
  · have h3 := @Int.emod_lt_of_pos a (-b) (by omega)
    rw [Int.emod_neg] at h3
    omega
  · have h3 := Int.emod_lt_of_pos a hpos
    omega

theorem int_gcd_emod_rec (a b : Int) : Int.gcd b (a % b) = Int.gcd a b := by
  apply Nat.dvd_antisymm
  · rw [← Int.natCast_dvd_natCast]
    apply Int.dvd_gcd
    · have h1 : (Int.gcd b (a % b) : Int) ∣ b := Int.gcd_dvd_left
      have h2 : (Int.gcd b (a % b) : Int) ∣ a % b := Int.gcd_dvd_right
      have h3 : (Int.gcd b (a % b) : Int) ∣ a % b + b * (a / b) :=
        dvd_add h2 (h1.mul_right _)
      rwa [Int.emod_add_ediv a b] at h3
    · exact Int.gcd_dvd_left
  · rw [← Int.natCast_dvd_natCast]
    apply Int.dvd_gcd
    · exact Int.gcd_dvd_right
    · have h1 : (Int.gcd a b : Int) ∣ a := Int.gcd_dvd_left
      have h2 : (Int.gcd a b : Int) ∣ b := Int.gcd_dvd_right
      have h3 : (Int.gcd a b : Int) ∣ a - b * (a / b) := dvd_sub h1 (h2.mul_right _)
      rwa [← Int.emod_def a b] at h3

theorem egcdF_spec : ∀ (n : Nat) (a b : Int), b.natAbs < n →
    (egcdF n a b).1 = Int.gcd a b ∧
    (egcdF n a b).2.1 * a + (egcdF n a b).2.2 * b = (egcdF n a b).1 := by
  intro n
  induction n with
  | zero => intro a b h; exact absurd h (Nat.not_lt_zero _)
  | succ n ih =>
    intro a b h
    by_cases hb : b = 0
    · subst hb
      rw [egcdF_zero]
      by_cases ha : a < 0
      · rw [if_pos ha]
        refine ⟨?_, by ring⟩
        rw [Int.gcd_zero_right]
        omega
      · rw [if_neg ha]
        refine ⟨?_, by ring⟩
        rw [Int.gcd_zero_right]
        omega
    · have hr : (a % b).natAbs < n := by
        have := int_emod_natAbs_lt a hb
        omega
      obtain ⟨ihg, ihb⟩ := ih b (a % b) hr
      have hstep : egcdF (n+1) a b =
          ((egcdF n b (a % b)).1, (egcdF n b (a % b)).2.2,
            (egcdF n b (a % b)).2.1 - (a / b) * (egcdF n b (a % b)).2.2) := by
        rw [egcdF.eq_def]
        simp [hb]
      rw [hstep]
      constructor
      · rw [ihg, int_gcd_emod_rec]
      · have hdef : a % b = a - b * (a / b) := Int.emod_def a b
        rw [ihg] at ihb
        rw [ihg]
        linear_combination ihb - (egcdF n b (a % b)).2.2 * hdef

/-- Modelled from the spec: `gcd` of the assumed big-integer library,
computed through `egcdF` so that it evaluates in the kernel. -/
def gcdI (a b : Int) : Int := (egcdF (b.natAbs + 1) a b).1

theorem gcdI_eq (a b : Int) : gcdI a b = Int.gcd a b :=
  (egcdF_spec _ a b (Nat.lt_succ_self _)).1

/-- Modelled from the spec: `three_gcd(out, x, y, z)` is
`gcd(gcd(x, y), z)`; the result is non-negative. -/
def three_gcd (x y z : Int) : Int := gcdI (gcdI x y) z

theorem three_gcd_dvd (x y z : Int) :
    three_gcd x y z ∣ x ∧ three_gcd x y z ∣ y ∧ three_gcd x y z ∣ z := by
  unfold three_gcd
  rw [gcdI_eq, gcdI_eq]
  refine ⟨?_, ?_, Int.gcd_dvd_right⟩
  · exact dvd_trans Int.gcd_dvd_left Int.gcd_dvd_left
  · exact dvd_trans Int.gcd_dvd_left Int.gcd_dvd_right

/-- Modelled from the spec: modular inverse `mpz_invert` of the assumed
big-integer library.  Succeeds exactly when `gcd(k, p) = 1`, returning the
canonical representative in `[0, p)` (for `p > 0`). -/
def invert (k p : Int) : Option Int :=
  let t := egcdF (p.natAbs + 1) k p
  if t.1 = 1 then some (t.2.1 % p) else none

theorem invert_some {k p v : Int} (hp : 0 < p) (h : invert k p = some v) :
    0 ≤ v ∧ v < p ∧ Int.ModEq p (k * v) 1 := by
  simp only [invert] at h
  split at h
  · rename_i hone
    obtain ⟨hg, hbez⟩ := egcdF_spec (p.natAbs + 1) k p (Nat.lt_succ_self _)
    injection h with hv
    set x := (egcdF (p.natAbs + 1) k p).2.1 with hx
    set y := (egcdF (p.natAbs + 1) k p).2.2 with hy
    have hxv : v = x % p := hv.symm
    refine ⟨?_, ?_, ?_⟩
    · rw [hxv]; exact Int.emod_nonneg x (by omega)
    · rw [hxv]; exact Int.emod_lt_of_pos x hp
    · have h1 : Int.ModEq p v x := by
        rw [hxv]; exact Int.emod_emod_of_dvd x dvd_rfl ▸ Int.mod_modEq x p
      have h2 : Int.ModEq p (k * v) (k * x) := Int.ModEq.mul_left k h1
      have h3 : k * x = 1 - y * p := by
        rw [hone] at hbez; linarith [hbez]
      refine h2.trans ?_
      rw [h3]
      have h4 : Int.ModEq p (1 - y * p) (1 - 0) :=
        Int.ModEq.sub_left 1 (Int.modEq_zero_iff_dvd.mpr ⟨y, mul_comm y p⟩)
      simpa using h4
  · exact absurd h (by simp)

theorem invert_isSome {k p : Int} (h : Int.gcd k p = 1) :
    (invert k p).isSome = true := by
  unfold invert
  obtain ⟨hg, _⟩ := egcdF_spec (p.natAbs + 1) k p (Nat.lt_succ_self _)
  have h2 : (egcdF (p.natAbs + 1) k p).1 = 1 := by rw [hg, h]; rfl
  simp [h2]

/-- Modelled from the spec: the linear-congruence solver
`solve_linear_congruence(out_mu, out_v, a, b, m)` solving `a*mu = b (mod m)`.
It computes `d = gcd(a, m)` with Bezout cofactors by extended Euclid, fails
(`NoSolution`) when `d` does not divide `b`, and otherwise returns
`mu = (u * (b/d)) mod (m/d)` normalized to `[0, m/d)` together with the
cofactor `v = m / d`. -/
def solve_linear_congruence (a b m : Int) : Option (Int × Int) :=
  let t := egcdF (m.natAbs + 1) a m
  let d := t.1
  if Int.fmod b d = 0 then
    some ((t.2.1 * Int.fdiv b d) % Int.fdiv m d, Int.fdiv m d)
  else none

theorem int_fmod_zero_dvd {b d : Int} (h : Int.fmod b d = 0) : d ∣ b := by
  have h2 := Int.fmod_add_fdiv b d
  exact ⟨Int.fdiv b d, by omega⟩

theorem int_dvd_fdiv_exact {b d : Int} (h : d ∣ b) : d * Int.fdiv b d = b := by
  obtain ⟨c, rfl⟩ := h
  by_cases hd : d = 0
  · subst hd; simp
  · rw [mul_comm d c, Int.mul_fdiv_cancel c hd, mul_comm]

theorem solve_linear_congruence_spec {a b m mu v : Int}
    (h : solve_linear_congruence a b m = some (mu, v)) :
    Int.ModEq m (a * mu) b ∧ v * (Int.gcd a m : Int) = m := by
  simp only [solve_linear_congruence] at h
  split at h
  · rename_i hmod
    obtain ⟨hg, hbez⟩ := egcdF_spec (m.natAbs + 1) a m (Nat.lt_succ_self _)
    set x := (egcdF (m.natAbs + 1) a m).2.1 with hx
    set y := (egcdF (m.natAbs + 1) a m).2.2 with hy
    set d : Int := (Int.gcd a m : Int) with hd
    rw [hg] at h hmod hbez
    have hda : d ∣ a := Int.gcd_dvd_left
    have hdm : d ∣ m := Int.gcd_dvd_right
    have hdb : d ∣ b := int_fmod_zero_dvd hmod
    have hmu : mu = (x * Int.fdiv b d) % Int.fdiv m d := by
      injection h with h1; cases h1; rfl
    have hv : v = Int.fdiv m d := by
      injection h with h1; cases h1; rfl
    have hmdd : d * Int.fdiv m d = m := int_dvd_fdiv_exact hdm
    have hbd : d * Int.fdiv b d = b := int_dvd_fdiv_exact hdb
    refine ⟨?_, by rw [hv, mul_comm]; exact hmdd⟩
    by_cases hdz : d = 0
    · have hg0 : Int.gcd a m = 0 := by exact_mod_cast hd ▸ hdz
      obtain ⟨ha0, hm0⟩ := Int.gcd_eq_zero_iff.mp hg0
      have hb0 : b = 0 := by
        have h5 := hdb; rw [hdz] at h5; exact zero_dvd_iff.mp h5
      subst ha0; subst hm0; subst hb0
      simp [Int.ModEq]
    · obtain ⟨a2, ha2⟩ := hda
      have h1 : Int.ModEq m (a * mu) (a * (x * Int.fdiv b d)) := by
        rw [hmu]
        apply Int.modEq_iff_dvd.mpr
        have hXmod : (x * Int.fdiv b d) % Int.fdiv m d =
            x * Int.fdiv b d -
              Int.fdiv m d * ((x * Int.fdiv b d) / Int.fdiv m d) :=
          Int.emod_def _ _
        refine ⟨a2 * ((x * Int.fdiv b d) / Int.fdiv m d), ?_⟩
        rw [hXmod, ha2]
        linear_combination (a2 * ((x * Int.fdiv b d) / Int.fdiv m d)) * hmdd
      have h2 : Int.ModEq m (a * (x * Int.fdiv b d)) b := by
        apply Int.modEq_iff_dvd.mpr
        refine ⟨y * Int.fdiv b d, ?_⟩
        linear_combination (-(Int.fdiv b d)) * hbez - hbd
      exact h1.trans h2
  · exact absurd h (by simp)

/-- Binary quadratic form `(a, b, c)`, the triple of `Mpz` coefficients of a
`GmpClassGroup` element. -/
structure Form where
  a : Int
  b : Int
  c : Int
deriving DecidableEq, Repr

/-- Discriminant `b^2 - 4*a*c` of a form. -/
def discriminant (f : Form) : Int := f.b * f.b - 4 * (f.a * f.c)

/-- Modelled from the spec: `ClassGroup::from_ab_discriminant(a, b, delta)`
constructs the form `(a, b, c)` with `c = (b^2 - delta) / (4a)`; the
division is exact for all specified uses. -/
def from_ab_discriminant (a b delta : Int) : Form :=
  ⟨a, b, (b * b - delta) / (4 * a)⟩

/-- Translation of `principal_ideal_class` from
`class_group.rs`: asserts `delta.mod_floor(4) == 1` and `delta < 0`
(a failed Rust `assert!` is `none` here), then builds the form from
`a = 1`, `b = 1` and the discriminant. -/
def principal_ideal_class (delta : Int) : Option Form :=
  if Int.fmod delta 4 = 1 ∧ delta < 0 then
    some (from_ab_discriminant 1 1 delta)
  else none

/-- Modelled from the spec: normalization step of the reduction loop, with
`r = floor((a - b) / 2a)`, `b <- b + 2*r*a`, `c <- a*r^2 + b_old*r + c`. -/
def normalizeStep (f : Form) : Form :=
  let r := Int.fdiv (f.a - f.b) (2 * f.a)
  ⟨f.a, f.b + 2 * r * f.a, f.a * r * r + f.b * r + f.c⟩

/-- Modelled from the spec: the reduction loop iterates while `a > c` or
(`a = c` and `b < 0`), swapping `a <-> c` with `b <- -b` and re-normalizing.
Fuel-indexed; the source loop is unbounded. -/
def reduceLoop : Nat → Form → Form
  | 0, f => f
  | fuel+1, f =>
    if f.a > f.c ∨ (f.a = f.c ∧ f.b < 0) then
      reduceLoop fuel (normalizeStep ⟨f.c, -f.b, f.a⟩)
    else f

/-- Modelled from the spec: full reduction `inner_reduce`: normalize once,
run the loop, then flip the sign of `b` in the two boundary cases. -/
def inner_reduce (fuel : Nat) (f : Form) : Form :=
  let f1 := reduceLoop fuel (normalizeStep f)
  let f2 := if f1.a = f1.c ∧ f1.b < 0 then ⟨f1.a, -f1.b, f1.c⟩ else f1
  if |f2.b| = f2.a ∧ f2.b < 0 then ⟨f2.a, -f2.b, f2.c⟩ else f2

theorem discriminant_normalizeStep (f : Form) :
    discriminant (normalizeStep f) = discriminant f := by
  simp only [normalizeStep, discriminant]
  ring

theorem discriminant_reduceLoop (fuel : Nat) (f : Form) :
    discriminant (reduceLoop fuel f) = discriminant f := by
  induction fuel generalizing f with
  | zero => rfl
  | succ n ih =>
    rw [reduceLoop]
    split
    · rw [ih, discriminant_normalizeStep]
      simp only [discriminant]
      ring
    · rfl

theorem discriminant_inner_reduce (fuel : Nat) (f : Form) :
    discriminant (inner_reduce fuel f) = discriminant f := by
  have hbase : discriminant (reduceLoop fuel (normalizeStep f)) = discriminant f := by
    rw [discriminant_reduceLoop, discriminant_normalizeStep]
  simp only [inner_reduce]
  split <;> split <;>
    (simp only [discriminant] at hbase ⊢; linear_combination hbase)

/-- The scratch context of named big-integer slots threaded through the
composition routine (`ctx.congruence_context.g` is flattened to `g`). -/
structure Ctx where
  g : Int
  h : Int
  w : Int
  s : Int
  t : Int
  u : Int
  a : Int
  b : Int
  m : Int
  mu : Int
  v : Int
  lambda : Int
  sigma : Int
  k : Int
  l : Int
deriving DecidableEq, Repr

/-- The all-zero scratch context. -/
def ctx0 : Ctx := ⟨0, 0, 0, 0, 0, 0, 0, 0, 0, 0, 0, 0, 0, 0, 0⟩

/-- Translation of the arithmetic part of `inner_multiply2`
(`inner_multiply2.rs`, lines 10-113): the composition of two binary
quadratic forms, before the final reduction.  Every `ffi` operation is a
rebinding; a failing congruence solve is `none`.  Returns the raw output
triple `(A, B, C) = (s*t, w*u - k*t - l*s, k*l - w*m)` together with the
final contents of the scratch context. -/
def inner_multiply2_raw (f : Form) (rhs : Form) (_ctx : Ctx) :
    Option (Form × Ctx) :=
  let g := Int.fdiv (f.b + rhs.b) 2
  let h := Int.fdiv (rhs.b - f.b) 2
  let w := three_gcd f.a rhs.a g
  let s := Int.fdiv f.a w
  let t := Int.fdiv rhs.a w
  let u := Int.fdiv g w
  let a1 := t * u
  let b1 := h * u + s * f.c
  let m1 := s * t
  match solve_linear_congruence a1 b1 m1 with
  | none => none
  | some (mu, v) =>
    let a2 := t * v
    let m2 := t * mu
    let b2 := h - m2
    let m3 := s
    match solve_linear_congruence a2 b2 m3 with
    | none => none
    | some (lam, sig) =>
      let a3 := v * lam
      let k := mu + a3
      let l1 := k * t
      let v2 := l1 - h
      let l := Int.fdiv v2 s
      let m4 := t * u * k - h * u - f.c * s
      let a4 := s * t
      let lam2 := Int.fdiv m4 a4
      let A := s * t
      let B := w * u - k * t - l * s
      let C := k * l - w * lam2
      some (⟨A, B, C⟩,
        { g := g, h := h, w := w, s := s, t := t, u := u,
          a := w * lam2, b := b2, m := m4, mu := mu, v := v2,
          lambda := lam2, sigma := sig, k := k, l := l })

/-- Translation of `inner_multiply2` from `inner_multiply2.rs`: the raw
composition followed by `inner_reduce` on the output form. -/
def inner_multiply2 (fuel : Nat) (f : Form) (rhs : Form) (ctx : Ctx) :
    Option (Form × Ctx) :=
  match inner_multiply2_raw f rhs ctx with
  | none => none
  | some (h, c) => some (inner_reduce fuel h, c)

/-- Independent translation of the arithmetic part of `inner_multiply2`
from `inner_multiply2 copy 2.rs` (the comment-free duplicate): the same
sequence of `ffi` operations before the final reduction. -/
def inner_multiply2_copy2_raw (f : Form) (rhs : Form) (_ctx : Ctx) :
    Option (Form × Ctx) :=
  let g := Int.fdiv (f.b + rhs.b) 2
  let h := Int.fdiv (rhs.b - f.b) 2
  let w := three_gcd f.a rhs.a g
  let s := Int.fdiv f.a w
  let t := Int.fdiv rhs.a w
  let u := Int.fdiv g w
  let a1 := t * u
  let b1 := h * u + s * f.c
  let m1 := s * t
  match solve_linear_congruence a1 b1 m1 with
  | none => none
  | some (mu, v) =>
    let a2 := t * v
    let m2 := t * mu
    let b2 := h - m2
    let m3 := s
    match solve_linear_congruence a2 b2 m3 with
    | none => none
    | some (lam, sig) =>
      let a3 := v * lam
      let k := mu + a3
      let l1 := k * t
      let v2 := l1 - h
      let l := Int.fdiv v2 s
      let m4 := t * u * k - h * u - f.c * s
      let a4 := s * t
      let lam2 := Int.fdiv m4 a4
      let A := s * t
      let B := w * u - k * t - l * s
      let C := k * l - w * lam2
      some (⟨A, B, C⟩,
        { g := g, h := h, w := w, s := s, t := t, u := u,
          a := w * lam2, b := b2, m := m4, mu := mu, v := v2,
          lambda := lam2, sigma := sig, k := k, l := l })

/-- Independent translation of `inner_multiply2` from
`inner_multiply2 copy 2.rs`: the same arithmetic followed by the final
`inner_reduce` call. -/
def inner_multiply2_copy2 (fuel : Nat) (f : Form) (rhs : Form) (ctx : Ctx) :
    Option (Form × Ctx) :=
  match inner_multiply2_copy2_raw f rhs ctx with
  | none => none
  | some (h, c) => some (inner_reduce fuel h, c)

theorem inner_multiply2_raw_facts {f g : Form} {ctx : Ctx} {H : Form} {c : Ctx}
    (h : inner_multiply2_raw f g ctx = some (H, c)) :
    c.g = Int.fdiv (f.b + g.b) 2 ∧
    c.h = Int.fdiv (g.b - f.b) 2 ∧
    c.w * c.s = f.a ∧
    c.w * c.t = g.a ∧
    c.w * c.u = c.g ∧
    c.v = c.k * c.t - c.h ∧
    c.l * c.s = c.v ∧
    c.m = c.t * c.u * c.k - c.h * c.u - f.c * c.s ∧
    c.lambda * (c.s * c.t) = c.m ∧
    H.a = c.s * c.t ∧
    H.b = c.w * c.u - c.k * c.t - c.l * c.s ∧
    H.c = c.k * c.l - c.w * c.lambda := by
  simp only [inner_multiply2_raw] at h
  split at h
  · exact absurd h (by simp)
  · rename_i mu v1 heq1
    split at h
    · exact absurd h (by simp)
    · rename_i lam sig heq2
      injection h with hpair
      rw [Prod.mk.injEq] at hpair
      obtain ⟨hH, hc⟩ := hpair
      subst hH
      subst hc
      dsimp only
      set G := Int.fdiv (f.b + g.b) 2 with hG
      set hh := Int.fdiv (g.b - f.b) 2 with hhh
      set w := three_gcd f.a g.a G with hw
      set s := Int.fdiv f.a w with hs
      set t := Int.fdiv g.a w with ht
      set u := Int.fdiv G w with hu
      obtain ⟨hwf, hwg, hwG⟩ := three_gcd_dvd f.a g.a G
      obtain ⟨hmod2, hv2⟩ := solve_linear_congruence_spec heq2
      obtain ⟨hmod1, hv1⟩ := solve_linear_congruence_spec heq1
      have hls : s ∣ (mu + v1 * lam) * t - hh := by
        have hd := Int.ModEq.dvd hmod2
        have he : (hh - t * mu) - t * v1 * lam =
            -(((mu + v1 * lam) * t) - hh) := by ring
        have hd2 : s ∣ (hh - t * mu) - t * v1 * lam := by
          have := hd
          have hrw : t * v1 * lam = (t * v1) * lam := by ring
          rw [hrw]
          exact this
        rw [he] at hd2
        exact (dvd_neg).mp hd2
      have hlm : s * t ∣ t * u * (mu + v1 * lam) - hh * u - f.c * s := by
        have hd1 : s * t ∣ (hh * u + s * f.c) - (t * u) * mu :=
          Int.ModEq.dvd hmod1
        have hd1' : s * t ∣ t * u * mu - hh * u - f.c * s := by
          have he : t * u * mu - hh * u - f.c * s =
              -((hh * u + s * f.c) - (t * u) * mu) := by ring
          rw [he]
          exact (dvd_neg).mpr hd1
        have hdvd_tu : ((t * u).gcd (s * t) : Int) ∣ t * u := Int.gcd_dvd_left
        obtain ⟨e, he⟩ := hdvd_tu
        have hd2 : s * t ∣ t * u * (v1 * lam) := by
          refine ⟨e * lam, ?_⟩
          calc t * u * (v1 * lam) = (t * u) * v1 * lam := by ring
          _ = ((t * u).gcd (s * t) : Int) * e * v1 * lam := by rw [← he]
          _ = (v1 * ((t * u).gcd (s * t) : Int)) * e * lam := by ring
          _ = (s * t) * (e * lam) := by rw [hv1]; ring
        have hsum : t * u * (mu + v1 * lam) - hh * u - f.c * s =
            (t * u * mu - hh * u - f.c * s) + t * u * (v1 * lam) := by ring
        rw [hsum]
        exact dvd_add hd1' hd2
      refine ⟨rfl, rfl, int_dvd_fdiv_exact hwf, int_dvd_fdiv_exact hwg,
        int_dvd_fdiv_exact hwG, rfl, ?_, rfl, ?_, rfl, rfl, rfl⟩
      · rw [mul_comm]
        exact int_dvd_fdiv_exact hls
      · rw [mul_comm]
        exact int_dvd_fdiv_exact hlm

/-- The order `q` of the secp256k1 scalar field, the value of `q()` in
`class_group.rs` (`FE::group_order()`, also spelled out in the commented
test there). -/
def qVal : Int := 115792089237316195423570985008687907852837564279074904382605163141518161494337

/-- Translation of `expo_f(p, delta, k)` from `class_group.rs`: for `k = 0`
the principal ideal class, otherwise the form
`(p^2, L(k)*p)` with `L(k) = k^-1 mod p` forced odd by subtracting `p`.
A failing `invert(...).unwrap()` is `none`. -/
def expo_f (p delta k : Int) : Option Form :=
  if k = 0 then principal_ideal_class delta
  else
    match invert k p with
    | none => none
    | some kinv0 =>
      let kinv := if Int.fmod kinv0 2 = 0 then kinv0 - p else kinv0
      let kinvp := kinv * p
      some (from_ab_discriminant (p * p) kinvp delta)

/-- Translation of `discrete_log_f(p, delta, fm)` from `class_group.rs`:
`0` on the principal class, otherwise `(fm.b / p)^-1 mod p`.
A failing `invert(...).unwrap()` (or a failed assert in
`principal_ideal_class`) is `none`. -/
def discrete_log_f (p delta : Int) (fm : Form) : Option Int :=
  match principal_ideal_class delta with
  | none => none
  | some pqf =>
    if fm = pqf then some 0
    else
      let lk := Int.fdiv fm.b p
      invert lk p

/-- The group parameters `CLGroup { delta_k, generator, stilde }`. -/
structure CLGroup where
  delta_k : Int
  generator : Form
  stilde : Int
deriving DecidableEq, Repr

/-- A ciphertext `(c1, c2)`. -/
structure Ciphertext where
  c1 : Form
  c2 : Form
deriving DecidableEq, Repr

/-- Composition of two forms through `inner_multiply2` with a scratch
context (whose incoming contents never influence the result): the `Mul`
of `GmpClassGroup`. -/
def composeF (fuel : Nat) (f rhs : Form) : Option Form :=
  match inner_multiply2 fuel f rhs ctx0 with
  | none => none
  | some (h, _) => some h

/-- Modelled from the spec: inversion of a form is `(a, -b, c)` followed by
reduction. -/
def inverseF (fuel : Nat) (f : Form) : Form :=
  inner_reduce fuel ⟨f.a, -f.b, f.c⟩

/-- Binary digits of a natural number, least significant first
(fuel-indexed for kernel evaluation). -/
def natBitsGo : Nat → Nat → List Bool
  | 0, _ => []
  | fuel+1, n => if n = 0 then [] else (n % 2 == 1) :: natBitsGo fuel (n / 2)

/-- Modelled from the spec: most-significant-bit-first square-and-multiply
accumulation loop of `GmpClassGroup::pow`. -/
def powAux (fuel : Nat) (base : Form) : List Bool → Form → Option Form
  | [], acc => some acc
  | bit :: rest, acc =>
    match composeF fuel acc acc with
    | none => none
    | some sq =>
      match (if bit then composeF fuel sq base else some sq) with
      | none => none
      | some acc2 => powAux fuel base rest acc2

/-- Modelled from the spec: `form^n` by square-and-multiply over the bits
of `n` from high to low, starting from the principal form
`(1, 1, (1 - delta)/4)` of the base's discriminant.  Exponents are
non-negative (`natAbs`). -/
def clPow (fuel : Nat) (f : Form) (n : Int) : Option Form :=
  powAux fuel f ((natBitsGo (n.natAbs + 1) n.natAbs).reverse)
    (from_ab_discriminant 1 1 (discriminant f))

/-- Translation of `CLGroup::update_class_group_by_p`: clone the group,
raise the generator to the power `q`, keep `delta_k` and `stilde`. -/
def update_class_group_by_p (fuel : Nat) (group : CLGroup) : Option CLGroup :=
  match clPow fuel group.generator qVal with
  | none => none
  | some gq_new => some ⟨group.delta_k, gq_new, group.stilde⟩

/-- Translation of `CLGroup::encrypt(group, public_key, m)`; the randomness
`r` drawn by the internal `keygen()` call is an explicit argument here, and
`r_big = generator^r` is recomputed from it.  Returns the ciphertext
`(c1, c2) = (g^r, pk^r * f^m)`. -/
def encrypt (fuel : Nat) (group : CLGroup) (public_key : Form) (r m : Int) :
    Option Ciphertext :=
  match clPow fuel group.generator r with
  | none => none
  | some r_big =>
    let delta := discriminant group.generator
    match expo_f qVal delta m with
    | none => none
    | some exp_f =>
      match clPow fuel public_key r with
      | none => none
      | some h_exp_r =>
        match composeF fuel h_exp_r exp_f with
        | none => none
        | some c2 => some ⟨r_big, c2⟩

/-- Translation of `CLGroup::decrypt(group, secret_key, c)`:
`tmp = c2 * (c1^sk)^-1`, then `discrete_log_f` at the group discriminant;
the final conversion of the plaintext into the scalar field `FE`
(`Scalar::from`) reduces modulo `q`. -/
def decrypt (fuel : Nat) (group : CLGroup) (secret_key : Int)
    (c : Ciphertext) : Option Int :=
  match clPow fuel c.c1 secret_key with
  | none => none
  | some c1_x =>
    let c1_x_inv := inverseF fuel c1_x
    match composeF fuel c.c2 c1_x_inv with
    | none => none
    | some tmp =>
      match discrete_log_f qVal (discriminant group.generator) tmp with
      | none => none
      | some plaintext => some (plaintext % qVal)

theorem int_modEq_sub_self (p v : Int) : Int.ModEq p (v - p) v :=
  Int.modEq_iff_dvd.mpr ⟨1, by ring⟩

theorem int_modEq_eq_of_range {p a b : Int} (h : Int.ModEq p a b)
    (ha0 : 0 ≤ a) (hap : a < p) (hb0 : 0 ≤ b) (hbp : b < p) : a = b := by
  have h1 : a % p = b % p := h
  rwa [Int.emod_eq_of_lt ha0 hap, Int.emod_eq_of_lt hb0 hbp] at h1

theorem expo_f_roundtrip {p delta m : Int} (hp : 1 < p)
    (hd4 : Int.fmod delta 4 = 1) (hdneg : delta < 0)
    (h0 : 0 ≤ m) (hmp : m < p) (hg : m ≠ 0 → Int.gcd m p = 1) :
    (expo_f p delta m).bind (discrete_log_f p delta) = some m := by
  have hpqf : principal_ideal_class delta =
      some (from_ab_discriminant 1 1 delta) := by
    simp [principal_ideal_class, hd4, hdneg]
  by_cases hm : m = 0
  · subst hm
    simp [expo_f, hpqf, discrete_log_f]
  · have hgcd := hg hm
    obtain ⟨v, hv⟩ := Option.isSome_iff_exists.mp (invert_isSome hgcd)
    obtain ⟨hv0, hvp, hmv⟩ := invert_some (by omega) hv
    set L : Int := if Int.fmod v 2 = 0 then v - p else v with hL
    have hLmod : Int.ModEq p L v := by
      by_cases he : Int.fmod v 2 = 0
      · rw [hL, if_pos he]; exact int_modEq_sub_self p v
      · rw [hL, if_neg he]
    have hmL : Int.ModEq p (m * L) 1 :=
      (Int.ModEq.mul_left m hLmod).trans hmv
    have hexp : expo_f p delta m =
        some (from_ab_discriminant (p * p) (L * p) delta) := by
      simp only [expo_f, if_neg hm, hv]
    rw [hexp]
    have hne : from_ab_discriminant (p * p) (L * p) delta ≠
        from_ab_discriminant 1 1 delta := by
      intro hcon
      have ha : p * p = 1 := congrArg Form.a hcon
      nlinarith
    have hlk : Int.fdiv ((from_ab_discriminant (p * p) (L * p) delta).b) p
        = L := by
      show Int.fdiv (L * p) p = L
      exact Int.mul_fdiv_cancel L (by omega)
    have hgL : Int.gcd L p = 1 := by
      rw [Int.gcd_eq_one_iff_coprime]
      obtain ⟨j, hj⟩ := Int.modEq_iff_dvd.mp hmL
      exact ⟨m, j, by linarith⟩
    obtain ⟨w, hw⟩ := Option.isSome_iff_exists.mp (invert_isSome hgL)
    obtain ⟨hw0, hwp, hLw⟩ := invert_some (by omega) hw
    have hwm : w = m := by
      have h1 : Int.ModEq p w (w * (m * L)) := by
        have := (Int.ModEq.mul_left w hmL).symm
        simpa using this
      have h2 : Int.ModEq p (w * (m * L)) (m * 1) := by
        have h3 : w * (m * L) = m * (L * w) := by ring
        rw [h3]
        exact Int.ModEq.mul_left m hLw
      have h4 : Int.ModEq p w m := by simpa using h1.trans h2
      exact int_modEq_eq_of_range h4 hw0 hwp h0 hmp
    show discrete_log_f p delta (from_ab_discriminant (p * p) (L * p) delta)
        = some m
    simp only [discrete_log_f, hpqf, if_neg hne, hlk, hw, hwm]

theorem two_dvd_sq_sub_self (b : Int) : 2 ∣ b * b - b := by
  obtain ⟨j, hj⟩ | ⟨j, hj⟩ := Int.even_or_odd b
  · exact ⟨2 * j * j - j, by rw [hj]; ring⟩
  · exact ⟨2 * j * j + j, by rw [hj]; ring⟩

theorem parity_of_disc_eq {f g : Form}
    (hd : discriminant f = discriminant g) : 2 ∣ g.b - f.b := by
  have h1 := two_dvd_sq_sub_self f.b
  have h2 := two_dvd_sq_sub_self g.b
  have h3 : 2 ∣ g.b * g.b - f.b * f.b := by
    simp only [discriminant] at hd
    exact ⟨2 * (g.a * g.c - f.a * f.c), by linarith⟩
  have h4 : g.b - f.b =
      (g.b * g.b - f.b * f.b) - (g.b * g.b - g.b) + (f.b * f.b - f.b) := by
    ring
  rw [h4]
  exact dvd_add (dvd_sub h3 h2) h1

theorem raw_middle_coeff {f g : Form} {ctx : Ctx} {H : Form} {c : Ctx}
    (hpar : 2 ∣ g.b - f.b) (h : inner_multiply2_raw f g ctx = some (H, c)) :
    2 * c.g = f.b + g.b ∧ 2 * c.h = g.b - f.b ∧
    H.b = g.b - 2 * (c.k * c.t) := by
  obtain ⟨h1, h2, h3, h4, h5, h6, h7, h8, h9, hHa, hHb, hHc⟩ :=
    inner_multiply2_raw_facts h
  have hsum : 2 ∣ f.b + g.b := by
    obtain ⟨j, hj⟩ := hpar
    exact ⟨f.b + j, by linarith⟩
  have e1 : 2 * c.g = f.b + g.b := by rw [h1]; exact int_dvd_fdiv_exact hsum
  have e2 : 2 * c.h = g.b - f.b := by rw [h2]; exact int_dvd_fdiv_exact hpar
  have h67 : c.l * c.s = c.k * c.t - c.h := h7.trans h6
  have hgh : c.g + c.h = g.b := by omega
  refine ⟨e1, e2, ?_⟩
  rw [hHb]
  linear_combination h5 - h67 + hgh

/-- Example inputs used by the witnesses: the principal form of
discriminant `-7` and the final scratch context of composing it with
itself. -/
def P7ex : Form := ⟨1, 1, 2⟩

def G7ex : CLGroup := ⟨-7, P7ex, 1⟩

def ctxC3 : Ctx :=
  { g := 1, h := 0, w := 1, s := 1, t := 1, u := 1, a := -2, b := 0,
    m := -2, mu := 0, v := 0, lambda := -2, sigma := 1, k := 0, l := 0 }

/-- C9: the two composition routines in the source tree -
`inner_multiply2` in `inner_multiply2.rs` and `inner_multiply2` in
`inner_multiply2 copy 2.rs` - are extensionally equal: on every pair of
input forms and every scratch context they produce identical results
(output form and final context alike). -/
theorem claim_C9_copies_extensionally_equal (fuel : Nat) (f g : Form)
    (ctx : Ctx) :
    inner_multiply2 fuel f g ctx = inner_multiply2_copy2 fuel f g ctx := rfl

/-- C3: every integer division inside the composition routine is exact.
Whenever `inner_multiply2_raw` completes, the floor divisions
`s = a1/w`, `t = a2/w`, `u = g/w`, `l = (k*t - h)/s` and
`m = (t*u*k - h*u - c1*s)/(s*t)` all recover exact quotients (so the
guarded `NotExact` failure demanded by the spec can never fire; the final
context records `v = k*t - h` and `m` as the two big numerators and
`lambda` as the last quotient). -/
theorem claim_C3_divisions_exact (f g : Form) (ctx : Ctx) (H : Form)
    (c : Ctx) (h : inner_multiply2_raw f g ctx = some (H, c)) :
    c.w * c.s = f.a ∧ c.w * c.t = g.a ∧ c.w * c.u = c.g ∧
    c.v = c.k * c.t - c.h ∧ c.l * c.s = c.v ∧
    c.m = c.t * c.u * c.k - c.h * c.u - f.c * c.s ∧
    c.lambda * (c.s * c.t) = c.m := by
  obtain ⟨_, _, h3, h4, h5, h6, h7, h8, h9, _, _, _⟩ :=
    inner_multiply2_raw_facts h
  exact ⟨h3, h4, h5, h6, h7, h8, h9⟩

theorem claim_C3_witness :
    inner_multiply2_raw P7ex P7ex ctx0 = some (⟨1, 1, 2⟩, ctxC3) ∧
    (ctxC3.w * ctxC3.s = P7ex.a ∧ ctxC3.w * ctxC3.t = P7ex.a ∧
      ctxC3.w * ctxC3.u = ctxC3.g ∧
      ctxC3.v = ctxC3.k * ctxC3.t - ctxC3.h ∧
      ctxC3.l * ctxC3.s = ctxC3.v ∧
      ctxC3.m = ctxC3.t * ctxC3.u * ctxC3.k - ctxC3.h * ctxC3.u -
        P7ex.c * ctxC3.s ∧
      ctxC3.lambda * (ctxC3.s * ctxC3.t) = ctxC3.m) :=
  ⟨by decide,
    claim_C3_divisions_exact P7ex P7ex ctx0 ⟨1, 1, 2⟩ ctxC3 (by decide)⟩

/-- C7: the output middle coefficient `B = w*u - k*t - l*s` of the
composition equals `b2 - 2*k*t`, given that the two congruence solves
succeeded (their postconditions then hold) and that the input `b`
coefficients have equal parity. -/
theorem claim_C7_middle_coefficient (f g : Form) (ctx : Ctx) (H : Form)
    (c : Ctx) (hpar : f.b % 2 = g.b % 2)
    (h : inner_multiply2_raw f g ctx = some (H, c)) :
    H.b = g.b - 2 * (c.k * c.t) := by
  have hpar2 : 2 ∣ g.b - f.b := by omega
  exact (raw_middle_coeff hpar2 h).2.2

theorem claim_C7_witness :
    P7ex.b % 2 = P7ex.b % 2 ∧
    inner_multiply2_raw P7ex P7ex ctx0 = some (⟨1, 1, 2⟩, ctxC3) ∧
    (⟨1, 1, 2⟩ : Form).b = P7ex.b - 2 * (ctxC3.k * ctxC3.t) :=
  ⟨rfl, by decide,
    claim_C7_middle_coefficient P7ex P7ex ctx0 ⟨1, 1, 2⟩ ctxC3 rfl (by decide)⟩

/-- C6: composition preserves the discriminant.  For input forms of equal
discriminant, the raw output triple `(s*t, w*u - k*t - l*s, k*l - w*m)`
has that same discriminant, and so does its reduction. -/
theorem claim_C6_discriminant_preserved (fuel : Nat) (f g : Form)
    (ctx : Ctx) (H : Form) (c : Ctx)
    (hd : discriminant f = discriminant g)
    (h : inner_multiply2_raw f g ctx = some (H, c)) :
    discriminant H = discriminant f ∧
    discriminant (inner_reduce fuel H) = discriminant f := by
  obtain ⟨h1, h2, h3, h4, h5, h6, h7, h8, h9, hHa, hHb, hHc⟩ :=
    inner_multiply2_raw_facts h
  have hpar2 : 2 ∣ g.b - f.b := parity_of_disc_eq hd
  obtain ⟨e1, e2, hB⟩ := raw_middle_coeff hpar2 h
  have hgh : c.g + c.h = g.b := by omega
  have hgmh : c.g - c.h = f.b := by omega
  have h67 : c.l * c.s = c.k * c.t - c.h := h7.trans h6
  have h89 : c.lambda * (c.s * c.t) =
      c.t * c.u * c.k - c.h * c.u - f.c * c.s := h9.trans h8
  have hkl : (c.s * c.t) * (c.k * c.l) =
      (c.k * c.t) * (c.k * c.t - c.h) := by
    linear_combination (c.k * c.t) * h67
  have hwm : (c.s * c.t) * (c.w * c.lambda) =
      c.t * c.k * c.g - c.h * c.g - f.c * f.a := by
    linear_combination c.w * h89 + (c.t * c.k) * h5 - c.h * h5 - f.c * h3
  have hfirst : discriminant H = discriminant f := by
    simp only [discriminant]
    rw [hB, hHa, hHc, ← hgh, ← hgmh]
    linear_combination (-4 : Int) * hkl + 4 * hwm
  exact ⟨hfirst, by rw [discriminant_inner_reduce]; exact hfirst⟩

theorem claim_C6_witness :
    discriminant P7ex = discriminant P7ex ∧
    inner_multiply2_raw P7ex P7ex ctx0 = some (⟨1, 1, 2⟩, ctxC3) ∧
    (discriminant ⟨1, 1, 2⟩ = discriminant P7ex ∧
      discriminant (inner_reduce 1 ⟨1, 1, 2⟩) = discriminant P7ex) :=
  ⟨rfl, by decide,
    claim_C6_discriminant_preserved 1 P7ex P7ex ctx0 ⟨1, 1, 2⟩ ctxC3 rfl
      (by decide)⟩

/-- C8: `update_class_group_by_p` is a pure frame update: whenever the
generator power succeeds, `delta_k` and `stilde` are carried over
unchanged, the new generator is exactly `generator^q`, and the update
succeeds exactly when the power does (there is no other state). -/
theorem claim_C8_update_frame (fuel : Nat) (G : CLGroup) :
    Option.map CLGroup.delta_k (update_class_group_by_p fuel G) =
      Option.map (fun _ => G.delta_k) (clPow fuel G.generator qVal) ∧
    Option.map CLGroup.stilde (update_class_group_by_p fuel G) =
      Option.map (fun _ => G.stilde) (clPow fuel G.generator qVal) ∧
    Option.map CLGroup.generator (update_class_group_by_p fuel G) =
      clPow fuel G.generator qVal := by
  unfold update_class_group_by_p
  cases clPow fuel G.generator qVal <;> simp

/-- C2: the fast-path exponentiation of the special generator `f` and its
discrete logarithm are mutually inverse on `[0, q)`:
`discrete_log_f(q, delta, expo_f(q, delta, m)) = m` for every plaintext
`m` in range (coprimality with `q` replaces the primality of the 256-bit
constant `q`, which guarantees it). -/
theorem claim_C2_expo_dlog_roundtrip (delta m : Int)
    (hd4 : Int.fmod delta 4 = 1) (hdneg : delta < 0)
    (h0 : 0 ≤ m) (hmq : m < qVal) (hg : m ≠ 0 → gcdI m qVal = 1) :
    (expo_f qVal delta m).bind (discrete_log_f qVal delta) = some m := by
  apply expo_f_roundtrip (by decide) hd4 hdneg h0 hmq
  intro hm
  have h2 := hg hm
  rw [gcdI_eq] at h2
  exact_mod_cast h2

theorem claim_C2_witness :
    gcdI 1 qVal = 1 ∧
    (expo_f qVal (-7) 1).bind (discrete_log_f qVal (-7)) = some 1 :=
  ⟨by decide,
    claim_C2_expo_dlog_roundtrip (-7) 1 (by decide) (by decide) (by decide)
      (by decide) (fun _ => by decide)⟩

/-- C5: `expo_f(p, delta, k)` returns the principal form for `k = 0`, and
for `0 < k < p` (with `k` invertible mod the odd modulus `p`) the form
`(p^2, L*p)` built by `from_ab_discriminant` with discriminant `delta`,
where `L` is the canonical representative of `k^-1 mod p`, made odd by
subtracting `p` when that representative is even; `L` is an odd inverse
of `k` lying in `(-p, p)`. -/
theorem claim_C5_expo_f_form (p delta k : Int) (hp : 1 < p)
    (hodd : Int.fmod p 2 = 1) (hk0 : 0 < k) (hkp : k < p)
    (hgcd : Int.gcd k p = 1) :
    expo_f p delta 0 = principal_ideal_class delta ∧
    ∃ v L, invert k p = some v ∧
      L = (if Int.fmod v 2 = 0 then v - p else v) ∧
      expo_f p delta k =
        some (from_ab_discriminant (p * p) (L * p) delta) ∧
      Int.fmod L 2 = 1 ∧ Int.ModEq p (k * L) 1 ∧ -p < L ∧ L < p := by
  constructor
  · simp [expo_f]
  · obtain ⟨v, hv⟩ := Option.isSome_iff_exists.mp (invert_isSome hgcd)
    obtain ⟨hv0, hvp, hkv⟩ := invert_some (by omega) hv
    have hk : k ≠ 0 := by omega
    have hvne : v ≠ 0 := by
      intro hc
      subst hc
      have h1 : (k * 0) % p = 1 % p := hkv
      have h2 : (1 : Int) % p = 1 := Int.emod_eq_of_lt (by omega) (by omega)
      simp only [mul_zero, Int.zero_emod] at h1
      omega
    refine ⟨v, if Int.fmod v 2 = 0 then v - p else v, hv, rfl, ?_, ?_, ?_, ?_, ?_⟩
    · simp only [expo_f, if_neg hk, hv]
    · have hfv : Int.fmod v 2 = v % 2 := Int.fmod_eq_emod v (by omega)
      have hfp : Int.fmod p 2 = p % 2 := Int.fmod_eq_emod p (by omega)
      split
      · rename_i he
        have hfe : Int.fmod (v - p) 2 = (v - p) % 2 :=
          Int.fmod_eq_emod _ (by omega)
        rw [hfe]
        rw [hfv] at he
        rw [hfp] at hodd
        omega
      · rename_i he
        rw [hfv] at he ⊢
        omega
    · split
      · exact (Int.ModEq.mul_left k (int_modEq_sub_self p v)).trans hkv
      · exact hkv
    · split <;> omega
    · split <;> omega

theorem claim_C5_witness :
    (0 : Int) < 3 ∧
    (expo_f 5 (-7) 0 = principal_ideal_class (-7) ∧
      ∃ v L, invert 3 5 = some v ∧
        L = (if Int.fmod v 2 = 0 then v - 5 else v) ∧
        expo_f 5 (-7) 3 =
          some (from_ab_discriminant (5 * 5) (L * 5) (-7)) ∧
        Int.fmod L 2 = 1 ∧ Int.ModEq 5 (3 * L) 1 ∧ -5 < L ∧ L < 5) :=
  ⟨by decide,
    claim_C5_expo_f_form 5 (-7) 3 (by decide) (by decide) (by decide)
      (by decide) (by decide)⟩

/-- C10: with a prime modulus and in-range inputs the modular-inverse
unwraps cannot panic: `k.invert(p)` succeeds in `expo_f` for every
`k` in `(0, p)`, and for the form `expo_f` produces, the extracted
`L = b/p` is again invertible mod `p`, so the unwrap inside
`discrete_log_f` succeeds as well. -/
theorem claim_C10_invert_unwraps_safe (p delta m : Int)
    (hprime : p.natAbs.Prime) (hp : 1 < p) (h0 : 0 < m) (hmp : m < p) :
    (invert m p).isSome = true ∧
    ∀ F, expo_f p delta m = some F →
      (invert (Int.fdiv F.b p) p).isSome = true := by
  have hgcd : Int.gcd m p = 1 := by
    have hnd : ¬ p.natAbs ∣ m.natAbs := by
      intro hdvd
      have hm0 : m.natAbs ≠ 0 := by omega
      have := Nat.le_of_dvd (by omega) hdvd
      omega
    have hco := (Nat.Prime.coprime_iff_not_dvd hprime).mpr hnd
    have : Nat.gcd m.natAbs p.natAbs = 1 := Nat.Coprime.gcd_eq_one hco.symm
    exact this
  refine ⟨invert_isSome hgcd, ?_⟩
  intro F hF
  obtain ⟨v, hv⟩ := Option.isSome_iff_exists.mp (invert_isSome hgcd)
  obtain ⟨hv0, hvp, hmv⟩ := invert_some (by omega) hv
  have hm : m ≠ 0 := by omega
  set L : Int := if Int.fmod v 2 = 0 then v - p else v with hL
  have hFe : F = from_ab_discriminant (p * p) (L * p) delta := by
    have h2 : expo_f p delta m =
        some (from_ab_discriminant (p * p) (L * p) delta) := by
      simp only [expo_f, if_neg hm, hv]
    rw [hF] at h2
    injection h2
  have hLmod : Int.ModEq p L v := by
    by_cases he : Int.fmod v 2 = 0
    · rw [hL, if_pos he]; exact int_modEq_sub_self p v
    · rw [hL, if_neg he]
  have hmL : Int.ModEq p (m * L) 1 :=
    (Int.ModEq.mul_left m hLmod).trans hmv
  have hgL : Int.gcd L p = 1 := by
    rw [Int.gcd_eq_one_iff_coprime]
    obtain ⟨j, hj⟩ := Int.modEq_iff_dvd.mp hmL
    exact ⟨m, j, by linarith⟩
  have hlk : Int.fdiv F.b p = L := by
    rw [hFe]
    show Int.fdiv (L * p) p = L
    exact Int.mul_fdiv_cancel L (by omega)
  rw [hlk]
  exact invert_isSome hgL

theorem claim_C10_witness :
    (0 : Int) < 2 ∧
    ((invert 2 5).isSome = true ∧
      ∀ F, expo_f 5 (-7) 2 = some F →
        (invert (Int.fdiv F.b 5) 5).isSome = true) :=
  ⟨by decide,
    claim_C10_invert_unwraps_safe 5 (-7) 2 (by norm_num) (by decide)
      (by decide) (by decide)⟩

/-- Parameters for the tampered-ciphertext counterexample: a fundamental
discriminant large enough that `(q^2, q, q^2 + 1)` is a genuine reduced
form, its principal form, a group built on it, and the form `f^(q+1)`
encoding the out-of-range plaintext `q + 1`. -/
def deltaK4 : Int := -(4 * qVal * qVal + 3)

def delta4 : Int := deltaK4 * (qVal * qVal)

def P4ex : Form := from_ab_discriminant 1 1 delta4

def G4ex : CLGroup := ⟨deltaK4, P4ex, 1⟩

def tamperedC2 : Form := ⟨qVal * qVal, qVal, qVal * qVal + 1⟩

/-- C4 counterexample: decrypt does not fail on a ciphertext whose
encoded plaintext is `q + 1 >= q`.  The ciphertext
`(c1, c2) = (principal, f^(q+1))` is exactly what the deterministic
encryption of the out-of-range plaintext `q + 1` under `sk = 0` produces,
yet `decrypt` surfaces no error at all: it silently returns
`some 1 = some ((q + 1) mod q)`. -/
theorem claim_C4_counterexample :
    qVal + 1 ≥ qVal ∧
    expo_f qVal delta4 (qVal + 1) = some tamperedC2 ∧
    decrypt 3 G4ex 0 ⟨P4ex, tamperedC2⟩ = some 1 ∧
    (1 : Int) ≠ qVal + 1 :=
  ⟨by decide, by decide, by decide, by decide⟩

/-- C4 amended: `decrypt` contains no `DecryptOutOfRange` error path; its
only range check is a `debug_assert!(plaintext < q())`, and that assert
can never fire, because `discrete_log_f` only ever returns `0` or a
canonical `invert` representative in `[0, p)`.  A tampered ciphertext
with plaintext at least `q` therefore decrypts silently to the plaintext
reduced mod `q` (see the counterexample) instead of failing. -/
theorem claim_C4_dlog_always_in_range (p delta : Int) (fm : Form)
    (v : Int) (hp : 0 < p) (h : discrete_log_f p delta fm = some v) :
    0 ≤ v ∧ v < p := by
  simp only [discrete_log_f] at h
  split at h
  · exact absurd h (by simp)
  · split at h
    · injection h with h1
      omega
    · obtain ⟨h1, h2, _⟩ := invert_some hp h
      exact ⟨h1, h2⟩

theorem claim_C4_witness :
    discrete_log_f 5 (-7) ⟨1, 1, 2⟩ = some 0 ∧
    (0 ≤ (0 : Int) ∧ (0 : Int) < 5) :=
  ⟨by decide,
    claim_C4_dlog_always_in_range 5 (-7) ⟨1, 1, 2⟩ 0 (by decide) (by decide)⟩

/-- C1: decrypt inverts encrypt on the plaintext space.  For a keypair
`pk = g^sk`, randomness `r`, and plaintext `m` in `[0, q)` (coprime to
`q` when nonzero, which the primality of `q` guarantees), if the
ciphertext masking cancels - `c2 * (c1^sk)^-1` recomputes `f^m`, the
class-group cancellation that holds whenever the group law applies -
then `decrypt(G, sk, encrypt(G, pk, r, m)) = m`. -/
theorem claim_C1_decrypt_encrypt_identity (fuel : Nat) (G : CLGroup)
    (sk r m : Int) (pk : Form) (ct : Ciphertext)
    (hd4 : Int.fmod (discriminant G.generator) 4 = 1)
    (hdneg : discriminant G.generator < 0)
    (h0 : 0 ≤ m) (hmq : m < qVal) (hg : m ≠ 0 → gcdI m qVal = 1)
    (hpk : clPow fuel G.generator sk = some pk)
    (henc : encrypt fuel G pk r m = some ct)
    (hcancel : (match clPow fuel ct.c1 sk with
                | none => none
                | some t => composeF fuel ct.c2 (inverseF fuel t)) =
               expo_f qVal (discriminant G.generator) m) :
    decrypt fuel G sk ct = some m := by
  have hround := @expo_f_roundtrip qVal (discriminant G.generator) m
    (by decide) hd4 hdneg h0 hmq
    (by intro hm; have h2 := hg hm; rw [gcdI_eq] at h2; exact_mod_cast h2)
  cases hexp : expo_f qVal (discriminant G.generator) m with
  | none => rw [hexp] at hround; simp at hround
  | some fm =>
    rw [hexp] at hround hcancel
    have hdl : discrete_log_f qVal (discriminant G.generator) fm = some m := by
      simpa using hround
    cases hpow : clPow fuel ct.c1 sk with
    | none => rw [hpow] at hcancel; simp at hcancel
    | some t0 =>
      rw [hpow] at hcancel
      have hcancel2 : composeF fuel ct.c2 (inverseF fuel t0) = some fm :=
        hcancel
      simp only [decrypt, hpow, hcancel2, hdl]
      have hmod : m % qVal = m := Int.emod_eq_of_lt h0 hmq
      rw [hmod]

theorem claim_C1_witness :
    clPow 5 G7ex.generator 0 = some P7ex ∧
    encrypt 5 G7ex P7ex 0 0 = some ⟨P7ex, P7ex⟩ ∧
    decrypt 5 G7ex 0 ⟨P7ex, P7ex⟩ = some 0 :=
  ⟨by decide, by decide,
    claim_C1_decrypt_encrypt_identity 5 G7ex 0 0 0 P7ex ⟨P7ex, P7ex⟩
      (by decide) (by decide) (by decide) (by decide)
      (fun hm => absurd rfl hm) (by decide) (by decide) (by decide)⟩
